/-
  Verification of the rive-toolkit-rn repository's binary .riv parser,
  extraction resolver and code generator (bin/rivParser.js,
  bin/getArtboardNames.js, bin/generate.js, bin/generateArtboardTypes.js).

  The JavaScript sources are shallowly embedded:
  * byte buffers are `List Nat` (each element a byte value 0..255);
  * the sequential reader of rivParser.js is modelled by passing the list of
    bytes not yet consumed (the source keeps an absolute offset into a fixed
    buffer; every read the parser performs moves the offset forward, so the
    remaining-suffix representation is faithful.  The one place the source
    could move the cursor backwards is a string property whose decoded
    32-bit length is negative; there `skip` clamps the move to "stay put",
    a case no well-formed stream reaches and no claim depends on);
  * JavaScript 32-bit bitwise arithmetic (`|`, `<<` with its shift-count
    masked to 5 bits, and the implicit ToInt32 coercions) is modelled
    explicitly on `Int`;
  * fallible reads return `Except String`, carrying the exact message of the
    `Error` thrown by the source; the `try`/`catch` around the object-stream
    loop of `parseRivFile` is modelled by the walk returning the names
    collected so far whenever a read fails.
-/
import Mathlib

set_option maxRecDepth 4000

namespace RivToolkit

/-! ## JavaScript 32-bit integer arithmetic -/

/-- The unsigned 32-bit bit pattern of an integer (JS ToUint32). -/
def toUInt32n (i : Int) : Nat := (i % (4294967296 : Int)).toNat

/-- JS ToInt32: reduce mod 2^32 into the signed range [-2^31, 2^31). -/
def toInt32 (i : Int) : Int :=
  let m := i % (4294967296 : Int)
  if m < 2147483648 then m else m - 4294967296

/-- JS `a << s`: shift the 32-bit pattern of `a` left by `s & 31`, reading
the result as a signed 32-bit integer. -/
def jsShl (a : Int) (s : Nat) : Int :=
  toInt32 (Int.ofNat ((toUInt32n a) <<< (s % 32)))

/-- JS `a | b` on 32-bit patterns, read back as a signed 32-bit integer. -/
def jsOr (a b : Int) : Int :=
  toInt32 (Int.ofNat ((toUInt32n a) ||| (toUInt32n b)))

theorem toInt32_of_small (n : Nat) (h : n < 2147483648) :
    toInt32 (n : Int) = (n : Int) := by
  unfold toInt32
  have h1 : ((n : Int)) % (4294967296 : Int) = (n : Int) := by omega
  simp only [h1]
  rw [if_pos (by omega)]

theorem toUInt32n_of_small (n : Nat) (h : n < 4294967296) :
    toUInt32n (n : Int) = n := by
  unfold toUInt32n
  omega

/-! ## The sequential byte reader (createReader in rivParser.js)

`readVaruint` (rivParser.js lines 41-52): little-endian base-128; the source
keeps `result` and `shift`, does `result |= (byte & 0x7f) << shift`, returns
on a byte whose 0x80 bit is clear, and after `shift += 7` throws
"Rive: invalid varuint" once `shift > 35`; running out of bytes first throws
"Rive: unexpected end of file". -/

def eofMsg : String := "Rive: unexpected end of file"

def invalidVaruintMsg : String := "Rive: invalid varuint"

def readVaruintAux : List Nat → Int → Nat → Except String (Int × List Nat)
  | [], _, _ => .error eofMsg
  | b :: rest, result, shift =>
    if b &&& 128 = 0 then .ok (jsOr result (jsShl ((b &&& 127 : Nat) : Int) shift), rest)
    else if shift + 7 > 35 then .error invalidVaruintMsg
    else readVaruintAux rest (jsOr result (jsShl ((b &&& 127 : Nat) : Int) shift)) (shift + 7)

def readVaruint (l : List Nat) : Except String (Int × List Nat) :=
  readVaruintAux l 0 0

theorem readVaruintAux_length {l : List Nat} {r : Int} {s : Nat} {v : Int}
    {l' : List Nat} (h : readVaruintAux l r s = .ok (v, l')) :
    l'.length < l.length := by
  induction l generalizing r s with
  | nil => simp [readVaruintAux] at h
  | cons b rest ih =>
    unfold readVaruintAux at h
    split at h
    · simp only [Except.ok.injEq, Prod.mk.injEq] at h
      obtain ⟨hv, hl⟩ := h
      subst hl
      simp
    · split at h
      · cases h
      · have := ih h
        simp only [List.length_cons]
        omega

theorem readVaruint_length {l : List Nat} {v : Int} {l' : List Nat}
    (h : readVaruint l = .ok (v, l')) : l'.length < l.length :=
  readVaruintAux_length h

theorem and_128_eq_zero_of_lt {b : Nat} (hb : b < 128) : b &&& 128 = 0 := by
  have h128 : (128 : Nat) = 2 ^ 7 := by norm_num
  rw [h128, Nat.and_two_pow, Nat.testBit_lt_two_pow (by omega)]
  simp

theorem and_127_eq_mod (b : Nat) : b &&& 127 = b % 128 := by
  have := Nat.and_pow_two_sub_one_eq_mod b 7
  norm_num at this
  exact this

theorem jsShl_ofNat_zero (n : Nat) (h : n < 2147483648) :
    jsShl (n : Int) 0 = (n : Int) := by
  unfold jsShl
  rw [toUInt32n_of_small n (by omega)]
  simp only [Nat.zero_mod, Nat.shiftLeft_zero]
  exact toInt32_of_small n h

theorem jsOr_zero_ofNat (n : Nat) (h : n < 2147483648) :
    jsOr 0 (n : Int) = (n : Int) := by
  unfold jsOr
  have h0 : toUInt32n 0 = 0 := by unfold toUInt32n; omega
  rw [h0, toUInt32n_of_small n (by omega), Nat.zero_or]
  exact toInt32_of_small n h

/-- A byte below 128 terminates immediately and decodes to itself. -/
theorem readVaruint_byte (b : Nat) (hb : b < 128) (rest : List Nat) :
    readVaruint (b :: rest) = .ok ((b : Int), rest) := by
  have h127 : b &&& 127 = b := by rw [and_127_eq_mod, Nat.mod_eq_of_lt hb]
  unfold readVaruint readVaruintAux
  rw [if_pos (and_128_eq_zero_of_lt hb), h127,
    jsShl_ofNat_zero b (by omega), jsOr_zero_ofNat b (by omega)]

/-! ## skip, readString and the ToC (rivParser.js lines 53-95)

`skip(count)` (lines 60-63) throws when `offset + count > buffer.length`,
i.e. when more bytes are requested than remain.  `count` is an `Int`
because a string length decoded by `readVaruint` is a signed 32-bit value;
a negative count moves the source cursor backwards, which the
remaining-suffix model clamps to "stay put" (see the header comment). -/

def skipBytes (count : Int) (l : List Nat) : Except String (List Nat) :=
  if (l.length : Int) < count then .error eofMsg
  else .ok (l.drop count.toNat)

theorem skipBytes_length {c : Int} {l l' : List Nat}
    (h : skipBytes c l = .ok l') : l'.length ≤ l.length := by
  unfold skipBytes at h
  split at h
  · cases h
  · simp only [Except.ok.injEq] at h
    subst h
    simp [List.length_drop]

/-- Lines 53-59: `readString` reads a varuint length, checks it against the
remaining bytes, and takes that many bytes as the (utf8) string content.
Names are kept as raw byte lists; equal byte lists decode to equal JS
strings, and the empty byte list decodes exactly to the empty string. -/
def readString (l : List Nat) : Except String (List Nat × List Nat) :=
  match readVaruint l with
  | .error e => .error e
  | .ok (len, l₁) =>
    if (l₁.length : Int) < len then .error eofMsg
    else .ok (l₁.take len.toNat, l₁.drop len.toNat)

theorem readString_length {l : List Nat} {s l' : List Nat}
    (h : readString l = .ok (s, l')) : l'.length < l.length := by
  unfold readString at h
  split at h
  · cases h
  · rename_i len l₁ heq
    split at h
    · cases h
    · simp only [Except.ok.injEq, Prod.mk.injEq] at h
      obtain ⟨hs, hl⟩ := h
      subst hl
      have h1 := readVaruint_length heq
      simp only [List.length_drop]
      omega

/-! ## Table of contents (rivParser.js lines 70-95)

The ToC is a JS `Map` from property key to the 2-bit backing type.  A `Map`
is modelled as the association list of its `set` calls in order; a lookup
returns the value of the LAST binding of the key (later `set`s overwrite
earlier ones).  `toc.get(key) ?? 0` becomes `tocGetD`. -/

abbrev Toc := List (Int × Nat)

/-- JS `toc.get(k)`: value of the last binding of `k`, if any. -/
def tocFind (toc : Toc) (k : Int) : Option Nat :=
  (List.find? (fun p => p.1 == k) (List.reverse toc)).map Prod.snd

/-- JS `toc.get(k) ?? 0` (rivParser.js lines 150 and 162). -/
def tocGetD (toc : Toc) (k : Int) : Nat :=
  (tocFind toc k).getD 0

/-- Lines 97-114, `skipPropertyValue`: a String-backed property is a varuint
length followed by that many bytes; every other backing type (UintBool 0,
Float 2, Color 3, and the `default` arm) skips 4 fixed bytes. -/
def skipPropertyValue (backingType : Nat) (l : List Nat) : Except String (List Nat) :=
  match backingType with
  | 1 =>
    match readVaruint l with
    | .error e => .error e
    | .ok (len, l₁) => skipBytes len l₁
  | _ => skipBytes 4 l

theorem skipPropertyValue_length {bt : Nat} {l l' : List Nat}
    (h : skipPropertyValue bt l = .ok l') : l'.length < l.length := by
  unfold skipPropertyValue at h
  split at h
  · split at h
    · cases h
    · rename_i len l₁ heq
      have h1 := readVaruint_length heq
      have h2 := skipBytes_length h
      omega
  · unfold skipBytes at h
    split at h
    · cases h
    · rename_i hlen
      simp only [Except.ok.injEq] at h
      subst h
      simp only [List.length_drop]
      omega

/-! ## The object stream (rivParser.js lines 142-166)

Inside `parseRivFile` every record starts with a varuint object type.  An
artboard record (type 1) walks (key, value) pairs until the 0 key, reading
the name from property key 4 when the ToC declares it String-backed
(line 151); every other record walks its pairs skipping each value by the
ToC width.  The walkers return the bytes remaining after the record (for
the artboard walker also the last name read, the empty string when none).

The source loops are made total with a fuel argument; every iteration of
every loop consumes at least one byte of the remaining suffix, so a fuel of
(number of remaining bytes + 1) can never run out on a path the source
completes.  The fuel-out result of the walkers is an error (the enclosing
object-stream loop catches every error), and the fuel-out result of the
object-stream loop itself is the list of names already collected, matching
the catch in rivParser.js lines 167-169. -/

def fuelMsg : String := "model: fuel exhausted"

def walkArtboard (toc : Toc) : Nat → List Nat → List Nat →
    Except String (List Nat × List Nat)
  | 0, _, _ => .error fuelMsg
  | fuel + 1, l, name =>
    match readVaruint l with
    | .error e => .error e
    | .ok (k, l₁) =>
      if k = 0 then .ok (name, l₁)
      else if k = 4 ∧ tocGetD toc k = 1 then
        match readString l₁ with
        | .error e => .error e
        | .ok (s, l₂) => walkArtboard toc fuel l₂ s
      else
        match skipPropertyValue (tocGetD toc k) l₁ with
        | .error e => .error e
        | .ok l₂ => walkArtboard toc fuel l₂ name

def walkOther (toc : Toc) : Nat → List Nat → Except String (List Nat)
  | 0, _ => .error fuelMsg
  | fuel + 1, l =>
    match readVaruint l with
    | .error e => .error e
    | .ok (k, l₁) =>
      if k = 0 then .ok l₁
      else
        match skipPropertyValue (tocGetD toc k) l₁ with
        | .error e => .error e
        | .ok l₂ => walkOther toc fuel l₂

theorem walkArtboard_length {toc : Toc} {fuel : Nat} {l name n l' : List Nat}
    (h : walkArtboard toc fuel l name = .ok (n, l')) : l'.length < l.length := by
  induction fuel generalizing l name with
  | zero => cases h
  | succ fuel ih =>
    unfold walkArtboard at h
    split at h
    · cases h
    · rename_i k l₁ heq
      have h1 := readVaruint_length heq
      split at h
      · simp only [Except.ok.injEq, Prod.mk.injEq] at h
        obtain ⟨hn, hl⟩ := h
        subst hl
        exact h1
      · split at h
        · split at h
          · cases h
          · rename_i s l₂ heq₂
            have h2 := readString_length heq₂
            have h3 := ih h
            omega
        · split at h
          · cases h
          · rename_i l₂ heq₂
            have h2 := skipPropertyValue_length heq₂
            have h3 := ih h
            omega

theorem walkOther_length {toc : Toc} {fuel : Nat} {l l' : List Nat}
    (h : walkOther toc fuel l = .ok l') : l'.length < l.length := by
  induction fuel generalizing l with
  | zero => cases h
  | succ fuel ih =>
    unfold walkOther at h
    split at h
    · cases h
    · rename_i k l₁ heq
      have h1 := readVaruint_length heq
      split at h
      · simp only [Except.ok.injEq] at h
        subst h
        exact h1
      · split at h
        · cases h
        · rename_i l₂ heq₂
          have h2 := skipPropertyValue_length heq₂
          have h3 := ih h
          omega

/-- The object-stream loop (rivParser.js lines 142-166): while at least two
bytes remain, read an object type; type 1 collects an artboard name, any
other type is fully walked and skipped.  Any error inside the loop is
caught (lines 167-169): the names collected so far are the result. -/
def parseRecords (toc : Toc) : Nat → List Nat → List (List Nat)
  | 0, _ => []
  | fuel + 1, l =>
    if l.length < 2 then []
    else
      match readVaruint l with
      | .error _ => []
      | .ok (t, l₁) =>
        if t = 1 then
          match walkArtboard toc (l₁.length + 1) l₁ [] with
          | .error _ => []
          | .ok (name, l₂) => name :: parseRecords toc fuel l₂
        else
          match walkOther toc (l₁.length + 1) l₁ with
          | .error _ => []
          | .ok l₂ => parseRecords toc fuel l₂

/-- The fuel of the object-stream loop is irrelevant once it exceeds the
number of remaining bytes: each iteration consumes at least one byte. -/
theorem parseRecords_fuel {toc : Toc} {f g : Nat} {l : List Nat}
    (hf : l.length < f) (hg : l.length < g) :
    parseRecords toc f l = parseRecords toc g l := by
  induction f generalizing g l with
  | zero => omega
  | succ f ih =>
    cases g with
    | zero => omega
    | succ g =>
      unfold parseRecords
      by_cases h2 : l.length < 2
      · rw [if_pos h2, if_pos h2]
      · rw [if_neg h2, if_neg h2]
        cases heq : readVaruint l with
        | error e => rfl
        | ok p =>
          obtain ⟨t, l₁⟩ := p
          dsimp only
          have h1 := readVaruint_length heq
          by_cases ht : t = 1
          · rw [if_pos ht, if_pos ht]
            cases heq₂ : walkArtboard toc (l₁.length + 1) l₁ [] with
            | error e => rfl
            | ok p =>
              obtain ⟨name, l₂⟩ := p
              dsimp only
              have h3 := walkArtboard_length heq₂
              rw [@ih g l₂ (by omega) (by omega)]
          · rw [if_neg ht, if_neg ht]
            cases heq₂ : walkOther toc (l₁.length + 1) l₁ with
            | error e => rfl
            | ok l₂ =>
              dsimp only
              have h3 := walkOther_length heq₂
              rw [@ih g l₂ (by omega) (by omega)]

/-- The object-stream walk as `parseRivFile` performs it: enough fuel for
the whole remaining suffix. -/
def parseObjectStream (toc : Toc) (l : List Nat) : List (List Nat) :=
  parseRecords toc (l.length + 1) l

theorem walkArtboard_fuel {toc : Toc} {f g : Nat} {l name : List Nat}
    (hf : l.length < f) (hg : l.length < g) :
    walkArtboard toc f l name = walkArtboard toc g l name := by
  induction f generalizing g l name with
  | zero => omega
  | succ f ih =>
    cases g with
    | zero => omega
    | succ g =>
      unfold walkArtboard
      cases heq : readVaruint l with
      | error e => rfl
      | ok p =>
        obtain ⟨k, l₁⟩ := p
        dsimp only
        have h1 := readVaruint_length heq
        by_cases hk : k = 0
        · rw [if_pos hk, if_pos hk]
        · rw [if_neg hk, if_neg hk]
          by_cases hstr : k = 4 ∧ tocGetD toc k = 1
          · rw [if_pos hstr, if_pos hstr]
            cases heq₂ : readString l₁ with
            | error e => rfl
            | ok p =>
              obtain ⟨s, l₂⟩ := p
              dsimp only
              have h2 := readString_length heq₂
              rw [@ih g l₂ s (by omega) (by omega)]
          · rw [if_neg hstr, if_neg hstr]
            cases heq₂ : skipPropertyValue (tocGetD toc k) l₁ with
            | error e => rfl
            | ok l₂ =>
              dsimp only
              have h2 := skipPropertyValue_length heq₂
              rw [@ih g l₂ name (by omega) (by omega)]

theorem walkOther_fuel {toc : Toc} {f g : Nat} {l : List Nat}
    (hf : l.length < f) (hg : l.length < g) :
    walkOther toc f l = walkOther toc g l := by
  induction f generalizing g l with
  | zero => omega
  | succ f ih =>
    cases g with
    | zero => omega
    | succ g =>
      unfold walkOther
      cases heq : readVaruint l with
      | error e => rfl
      | ok p =>
        obtain ⟨k, l₁⟩ := p
        dsimp only
        have h1 := readVaruint_length heq
        by_cases hk : k = 0
        · rw [if_pos hk, if_pos hk]
        · rw [if_neg hk, if_neg hk]
          cases heq₂ : skipPropertyValue (tocGetD toc k) l₁ with
          | error e => rfl
          | ok l₂ =>
            dsimp only
            have h2 := skipPropertyValue_length heq₂
            rw [@ih g l₂ (by omega) (by omega)]

/-! ## Complete records

A byte sequence is a complete record exactly when, whatever follows it, the
object-type varuint and the property walk succeed and consume precisely the
sequence.  The quantification over the continuation expresses that the walk
never looks past the record's own bytes. -/

/-- The byte sequence `a` is one complete artboard record (object type 1)
whose property walk yields the name `n`. -/
def IsArtboardRecord (toc : Toc) (a n : List Nat) : Prop :=
  ∀ s : List Nat, ∃ rest : List Nat,
    readVaruint (a ++ s) = .ok (1, rest) ∧
    walkArtboard toc (rest.length + 1) rest [] = .ok (n, s)

/-- The byte sequence `r` is one complete record of a non-artboard object
type whose property walk succeeds (all properties skipped by ToC width). -/
def IsOtherRecord (toc : Toc) (r : List Nat) : Prop :=
  ∀ s : List Nat, ∃ (t : Int) (rest : List Nat),
    readVaruint (r ++ s) = .ok (t, rest) ∧ t ≠ 1 ∧
    walkOther toc (rest.length + 1) rest = .ok s

theorem parseObjectStream_nil (toc : Toc) {l : List Nat} (h : l.length < 2) :
    parseObjectStream toc l = [] := by
  unfold parseObjectStream parseRecords
  rw [if_pos h]

theorem parseRecords_eq_stream {toc : Toc} {f : Nat} {l : List Nat}
    (hf : l.length < f) : parseRecords toc f l = parseObjectStream toc l := by
  unfold parseObjectStream
  exact @parseRecords_fuel toc f (l.length + 1) l hf (by omega)

theorem parseObjectStream_artboard {toc : Toc} {a n : List Nat}
    (h : IsArtboardRecord toc a n) (s : List Nat) :
    parseObjectStream toc (a ++ s) = n :: parseObjectStream toc s := by
  obtain ⟨rest, h1, h2⟩ := h s
  have hr1 := readVaruint_length h1
  have hr2 := walkArtboard_length h2
  simp only [List.length_append] at hr1 hr2
  unfold parseObjectStream
  conv_lhs => rw [parseRecords]
  rw [if_neg (by simp only [List.length_append]; omega)]
  rw [h1]
  dsimp only
  rw [if_pos rfl, h2]
  dsimp only
  congr 1
  rw [@parseRecords_eq_stream toc ((a ++ s).length) s
    (by simp only [List.length_append]; omega)]
  unfold parseObjectStream
  rfl

theorem parseObjectStream_other {toc : Toc} {r : List Nat}
    (h : IsOtherRecord toc r) (s : List Nat) :
    parseObjectStream toc (r ++ s) = parseObjectStream toc s := by
  obtain ⟨t, rest, h1, ht, h2⟩ := h s
  have hr1 := readVaruint_length h1
  have hr2 := walkOther_length h2
  simp only [List.length_append] at hr1 hr2
  unfold parseObjectStream
  conv_lhs => rw [parseRecords]
  rw [if_neg (by simp only [List.length_append]; omega)]
  rw [h1]
  dsimp only
  rw [if_neg ht, h2]
  dsimp only
  rw [@parseRecords_eq_stream toc ((r ++ s).length) s
    (by simp only [List.length_append]; omega)]
  unfold parseObjectStream
  rfl

theorem parseObjectStream_single_artboard {toc : Toc} {a n : List Nat}
    (h : IsArtboardRecord toc a n) : parseObjectStream toc a = [n] := by
  have := parseObjectStream_artboard h []
  rw [List.append_nil] at this
  rw [this, parseObjectStream_nil toc (by simp)]

/-! ## parseToc and parseRivFile (rivParser.js lines 74-95 and 121-172) -/

/-- The key loop of `parseToc` (lines 75-79): varuint property keys until a
zero key.  As above, fuel > remaining bytes never runs out. -/
def readTocKeys : Nat → List Nat → Except String (List Int × List Nat)
  | 0, _ => .error fuelMsg
  | fuel + 1, l =>
    match readVaruint l with
    | .error e => .error e
    | .ok (k, l₁) =>
      if k = 0 then .ok ([], l₁)
      else
        match readTocKeys fuel l₁ with
        | .error e => .error e
        | .ok (ks, l₂) => .ok (k :: ks, l₂)

/-- Lines 74-95: keys until 0, then `ceil(2*keys/8)` type bytes rounded up
to a 4-byte boundary, read with `readUint8` (which throws the end-of-file
error when the buffer is exhausted); key `i` gets bits `(2i mod 8)` and the
one above of type byte `i / 4`.  A duplicate key keeps its last binding,
matching `Map.set`; `tocGetD` reads the last binding. -/
def parseToc (l : List Nat) : Except String (Toc × List Nat) :=
  match readTocKeys (l.length + 1) l with
  | .error e => .error e
  | .ok (keys, l₁) =>
    let numBytes := (keys.length * 2 + 7) / 8
    let aligned := ((numBytes + 3) / 4) * 4
    if l₁.length < aligned then .error eofMsg
    else
      let typeBytes := l₁.take aligned
      .ok (keys.enum.map
        (fun p => (p.2, (typeBytes.getD (p.1 / 4) 0 >>> ((p.1 % 4) * 2)) &&& 3)),
        l₁.drop aligned)

/-- rivParser.js lines 121-172, `parseRivFile`.  The buffer must be at
least 4 bytes and begin with the fingerprint "RIVE" ([0x52,0x49,0x56,0x45]);
then three varuints (major, minor, fileId) are read, major must be 7, the
ToC is parsed, and the object stream is walked with all its errors caught.
Failures before the object stream propagate to the caller.  The artboard
names are returned as raw byte lists alongside major and minor. -/
def parseRivFile (buf : List Nat) : Except String (List (List Nat) × Int × Int) :=
  if buf.length < 4 then .error "Rive: file too short"
  else if buf.take 4 ≠ [82, 73, 86, 69] then
    .error "Rive: invalid file (not a .riv file)"
  else
    match readVaruint (buf.drop 4) with
    | .error e => .error e
    | .ok (major, l₁) =>
      match readVaruint l₁ with
      | .error e => .error e
      | .ok (minor, l₂) =>
        match readVaruint l₂ with
        | .error e => .error e
        | .ok (_, l₃) =>
          if major ≠ 7 then
            .error ("Rive: unsupported format version " ++ toString major ++ "."
              ++ toString minor ++ " (expected major 7)")
          else
            match parseToc l₃ with
            | .error e => .error e
            | .ok (toc, l₄) => .ok (parseObjectStream toc l₄, major, minor)

/-! ## Step lemmas for concrete record walks -/

theorem skipPropertyValue_not_string {bt : Nat} (h : bt ≠ 1) (l : List Nat) :
    skipPropertyValue bt l = skipBytes 4 l := by
  match bt with
  | 0 => rfl
  | 1 => exact absurd rfl h
  | n + 2 => rfl

theorem skipBytes_four {l : List Nat} (h : 4 ≤ l.length) :
    skipBytes 4 l = .ok (l.drop 4) := by
  unfold skipBytes
  rw [if_neg (by omega)]
  rfl

theorem readString_len_byte {b : Nat} (hb : b < 128) (l : List Nat)
    (h : b ≤ l.length) : readString (b :: l) = .ok (l.take b, l.drop b) := by
  unfold readString
  rw [readVaruint_byte b hb]
  dsimp only
  rw [if_neg (by omega)]
  simp

theorem walkArtboard_key0 (toc : Toc) (f : Nat) (s name : List Nat) :
    walkArtboard toc (f + 1) (0 :: s) name = .ok (name, s) := by
  unfold walkArtboard
  rw [readVaruint_byte 0 (by omega)]
  dsimp only
  rw [if_pos (by norm_num)]

theorem walkOther_key0 (toc : Toc) (f : Nat) (s : List Nat) :
    walkOther toc (f + 1) (0 :: s) = .ok s := by
  unfold walkOther
  rw [readVaruint_byte 0 (by omega)]
  dsimp only
  rw [if_pos (by norm_num)]

theorem walkArtboard_name_step {toc : Toc} {l l₁ s l₂ : List Nat}
    (f : Nat) (name : List Nat)
    (hr : readVaruint l = .ok (4, l₁)) (htoc : tocGetD toc 4 = 1)
    (hstr : readString l₁ = .ok (s, l₂)) :
    walkArtboard toc (f + 1) l name = walkArtboard toc f l₂ s := by
  conv_lhs => rw [walkArtboard]
  rw [hr]
  dsimp only
  rw [if_neg (by norm_num), if_pos (by exact ⟨rfl, htoc⟩), hstr]

theorem walkArtboard_skip_step {toc : Toc} {l : List Nat} {k : Int}
    {l₁ : List Nat} (f : Nat) (name : List Nat)
    (hr : readVaruint l = .ok (k, l₁)) (hk0 : k ≠ 0)
    (hbt : tocGetD toc k ≠ 1) (hrem : 4 ≤ l₁.length) :
    walkArtboard toc (f + 1) l name = walkArtboard toc f (l₁.drop 4) name := by
  conv_lhs => rw [walkArtboard]
  rw [hr]
  dsimp only
  rw [if_neg hk0, if_neg (by intro hc; exact hbt hc.2),
    skipPropertyValue_not_string hbt, skipBytes_four hrem]

theorem walkOther_skip_step {toc : Toc} {l : List Nat} {k : Int}
    {l₁ : List Nat} (f : Nat)
    (hr : readVaruint l = .ok (k, l₁)) (hk0 : k ≠ 0)
    (hbt : tocGetD toc k ≠ 1) (hrem : 4 ≤ l₁.length) :
    walkOther toc (f + 1) l = walkOther toc f (l₁.drop 4) := by
  conv_lhs => rw [walkOther]
  rw [hr]
  dsimp only
  rw [if_neg hk0, skipPropertyValue_not_string hbt, skipBytes_four hrem]

theorem walkArtboard_fuel_sat {toc : Toc} {f : Nat} {l name : List Nat}
    (h : l.length < f) :
    walkArtboard toc f l name = walkArtboard toc (l.length + 1) l name :=
  walkArtboard_fuel h (by omega)

theorem walkOther_fuel_sat {toc : Toc} {f : Nat} {l : List Nat}
    (h : l.length < f) :
    walkOther toc f l = walkOther toc (l.length + 1) l :=
  walkOther_fuel h (by omega)

/-! ## Claims about the raw parser -/

/-- C1 (amended): once the fingerprint, the three header varuints with
major version 7, and the ToC have been decoded successfully, parseRivFile
never raises: whatever the object stream contains, it returns the artboard
names collected before any read failure (the object-stream loop catches
every error).  The unamended claim, which promises this already when the
fingerprint is valid and the major version decodes to 7, is refuted by
claim_C1_counterexample: a buffer truncated inside the header throws past
the parser's boundary. -/
theorem claim_C1_no_error_after_header
    (buf rest l₁ l₂ l₃ l₄ : List Nat) (minor fid : Int) (toc : Toc)
    (hbuf : buf = [82, 73, 86, 69] ++ rest)
    (hmaj : readVaruint rest = .ok (7, l₁))
    (hmin : readVaruint l₁ = .ok (minor, l₂))
    (hfid : readVaruint l₂ = .ok (fid, l₃))
    (htoc : parseToc l₃ = .ok (toc, l₄)) :
    parseRivFile buf = .ok (parseObjectStream toc l₄, 7, minor) := by
  subst hbuf
  unfold parseRivFile
  rw [if_neg (by simp)]
  have ht : List.take 4 ([82, 73, 86, 69] ++ rest) = [82, 73, 86, 69] := rfl
  have hd : List.drop 4 ([82, 73, 86, 69] ++ rest) = rest := rfl
  rw [ht]
  rw [if_neg (by simp)]
  rw [hd, hmaj]
  dsimp only
  rw [hmin]
  dsimp only
  rw [hfid]
  dsimp only
  rw [if_neg (by simp), htoc]

theorem claim_C1_witness :
    readVaruint [7, 0, 0, 0, 1, 0] = .ok (7, [0, 0, 0, 1, 0]) ∧
    readVaruint [0, 0, 0, 1, 0] = .ok (0, [0, 0, 1, 0]) ∧
    readVaruint [0, 0, 1, 0] = .ok (0, [0, 1, 0]) ∧
    parseToc [0, 1, 0] = .ok ([], [1, 0]) ∧
    parseRivFile [82, 73, 86, 69, 7, 0, 0, 0, 1, 0] =
      .ok (parseObjectStream [] [1, 0], 7, 0) :=
  ⟨rfl, rfl, rfl, rfl,
    claim_C1_no_error_after_header _ [7, 0, 0, 0, 1, 0] _ _ _ _ 0 0 []
      rfl rfl rfl rfl rfl⟩

/-- C1 (counterexample): the buffer 52 49 56 45 07 has the valid RIVE
fingerprint and its major version decodes to the supported value 7, yet
parseRivFile throws the end-of-file error (reading the minor version)
instead of returning the names collected so far. -/
theorem claim_C1_counterexample :
    parseRivFile [82, 73, 86, 69, 7] = .error "Rive: unexpected end of file" ∧
    List.take 4 [82, 73, 86, 69, 7] = [82, 73, 86, 69] ∧
    readVaruint (List.drop 4 [82, 73, 86, 69, 7]) = .ok (7, []) :=
  ⟨rfl, rfl, rfl⟩

/-- C3 (amended): an artboard record with no name property (or an empty
one) yields the empty name, and that empty name IS included in the list the
raw parser returns — parseRivFile does not filter it out (the filtering of
blank names in this repository happens only in the engine-based resolver,
getArtboardNames.js lines 74 and 160, never on the raw parser's output).
The unamended claim, that the empty name is filtered out of the raw
parser's result, is refuted by claim_C3_counterexample. -/
theorem claim_C3_empty_name_included (toc : Toc) (a : List Nat)
    (h : IsArtboardRecord toc a []) :
    parseObjectStream toc a = [[]] :=
  parseObjectStream_single_artboard h

theorem claim_C3_witness :
    IsArtboardRecord [] [1, 0] [] ∧ parseObjectStream [] [1, 0] = [[]] := by
  have h : IsArtboardRecord [] [1, 0] [] := by
    intro s
    refine ⟨0 :: s, ?_, ?_⟩
    · rw [show ([1, 0] : List Nat) ++ s = 1 :: (0 :: s) from rfl,
        readVaruint_byte 1 (by omega)]
      norm_num
    · exact walkArtboard_key0 [] (0 :: s).length s []
  exact ⟨h, claim_C3_empty_name_included [] [1, 0] h⟩

/-- C3 (counterexample): a complete file whose object stream is a single
artboard record with no properties parses to the name list containing
exactly the empty name — the empty name is present in the raw parser's
returned list, not filtered from it. -/
theorem claim_C3_counterexample :
    parseRivFile [82, 73, 86, 69, 7, 0, 0, 0, 1, 0] = .ok ([[]], 7, 0) ∧
    [] ∈ ([[]] : List (List Nat)) :=
  ⟨rfl, by simp⟩

/-- C10: a property key absent from the ToC gets backing kind 0 (the
`?? 0` default, the fixed-width scalar kind), so its value is skipped as
exactly 4 bytes, in artboard records and other records alike; in an
artboard record such a key leaves the name untouched even when the key is
the name-property constant 4, because the name is read only when the
declared backing kind is the text kind 1. -/
theorem claim_C10_unknown_key_skips_four (toc : Toc) (l l₁ name : List Nat)
    (k : Int) (f : Nat)
    (hr : readVaruint l = .ok (k, l₁)) (habs : tocFind toc k = none)
    (hk0 : k ≠ 0) (hrem : 4 ≤ l₁.length) :
    tocGetD toc k = 0 ∧
    walkArtboard toc (f + 1) l name = walkArtboard toc f (l₁.drop 4) name ∧
    walkOther toc (f + 1) l = walkOther toc f (l₁.drop 4) := by
  have h0 : tocGetD toc k = 0 := by unfold tocGetD; rw [habs]; rfl
  exact ⟨h0,
    walkArtboard_skip_step f name hr hk0 (by rw [h0]; norm_num) hrem,
    walkOther_skip_step f hr hk0 (by rw [h0]; norm_num) hrem⟩

theorem claim_C10_witness :
    readVaruint [4, 9, 9, 9, 9, 0] = .ok (4, [9, 9, 9, 9, 0]) ∧
    tocFind [] 4 = none ∧
    (tocGetD [] 4 = 0 ∧
      walkArtboard [] 6 [4, 9, 9, 9, 9, 0] [] =
        walkArtboard [] 5 (List.drop 4 [9, 9, 9, 9, 0]) [] ∧
      walkOther [] 6 [4, 9, 9, 9, 9, 0] =
        walkOther [] 5 (List.drop 4 [9, 9, 9, 9, 0])) :=
  ⟨rfl, rfl,
    claim_C10_unknown_key_skips_four [] [4, 9, 9, 9, 9, 0] [9, 9, 9, 9, 0] []
      4 5 rfl rfl (by norm_num) (by norm_num)⟩

/-- C2: every record is walked property-by-property with the ToC widths,
known or unknown object type alike, so a complete unknown-type record with
declared properties interleaved between two artboard records changes
neither the set of names decoded nor the second artboard's name: the
stream with the unknown record parses to the same two names as the stream
without it. -/
theorem claim_C2_unknown_record_alignment (toc : Toc)
    (a1 r a2 n1 n2 : List Nat)
    (h1 : IsArtboardRecord toc a1 n1) (hr : IsOtherRecord toc r)
    (h2 : IsArtboardRecord toc a2 n2) :
    parseObjectStream toc (a1 ++ r ++ a2) = parseObjectStream toc (a1 ++ a2) ∧
    parseObjectStream toc (a1 ++ r ++ a2) = [n1, n2] := by
  have e2 : parseObjectStream toc a2 = [n2] := parseObjectStream_single_artboard h2
  have eL : parseObjectStream toc (a1 ++ (r ++ a2)) =
      n1 :: parseObjectStream toc (r ++ a2) := parseObjectStream_artboard h1 (r ++ a2)
  have eM : parseObjectStream toc (r ++ a2) = parseObjectStream toc a2 :=
    parseObjectStream_other hr a2
  have eR : parseObjectStream toc (a1 ++ a2) = n1 :: parseObjectStream toc a2 :=
    parseObjectStream_artboard h1 a2
  constructor
  · rw [List.append_assoc, eL, eM, eR]
  · rw [List.append_assoc, eL, eM, e2]

theorem claim_C2_witness :
    IsArtboardRecord [(4, 1)] [1, 4, 1, 65, 0] [65] ∧
    IsOtherRecord [(4, 1)] [5, 9, 9, 9, 9, 9, 0] ∧
    IsArtboardRecord [(4, 1)] [1, 4, 1, 66, 0] [66] ∧
    parseObjectStream [(4, 1)]
        ([1, 4, 1, 65, 0] ++ [5, 9, 9, 9, 9, 9, 0] ++ [1, 4, 1, 66, 0]) =
      parseObjectStream [(4, 1)] ([1, 4, 1, 65, 0] ++ [1, 4, 1, 66, 0]) ∧
    parseObjectStream [(4, 1)]
        ([1, 4, 1, 65, 0] ++ [5, 9, 9, 9, 9, 9, 0] ++ [1, 4, 1, 66, 0]) =
      [[65], [66]] := by
  have hart : ∀ c : Nat, c < 128 →
      IsArtboardRecord [(4, 1)] [1, 4, 1, c, 0] [c] := by
    intro c hc s
    refine ⟨4 :: 1 :: c :: 0 :: s, ?_, ?_⟩
    · rw [show ([1, 4, 1, c, 0] : List Nat) ++ s = 1 :: (4 :: 1 :: c :: 0 :: s) from rfl,
        readVaruint_byte 1 (by omega)]
      norm_num
    · have hr4 : readVaruint (4 :: 1 :: c :: 0 :: s) = .ok (4, 1 :: c :: 0 :: s) := by
        rw [readVaruint_byte 4 (by omega)]
        norm_num
      have hstr : readString (1 :: c :: 0 :: s) = .ok ([c], 0 :: s) := by
        rw [readString_len_byte (by omega) (c :: 0 :: s) (by simp)]
        simp
      rw [walkArtboard_name_step (4 :: 1 :: c :: 0 :: s).length [] hr4
        (by decide) hstr]
      rw [walkArtboard_fuel_sat (by simp)]
      exact walkArtboard_key0 [(4, 1)] (0 :: s).length s [c]
  have hoth : IsOtherRecord [(4, 1)] [5, 9, 9, 9, 9, 9, 0] := by
    intro s
    refine ⟨5, 9 :: 9 :: 9 :: 9 :: 9 :: 0 :: s, ?_, by norm_num, ?_⟩
    · rw [show ([5, 9, 9, 9, 9, 9, 0] : List Nat) ++ s =
          5 :: (9 :: 9 :: 9 :: 9 :: 9 :: 0 :: s) from rfl,
        readVaruint_byte 5 (by omega)]
      norm_num
    · have hr9 : readVaruint (9 :: 9 :: 9 :: 9 :: 9 :: 0 :: s) =
          .ok (9, 9 :: 9 :: 9 :: 9 :: 0 :: s) := by
        rw [readVaruint_byte 9 (by omega)]
        norm_num
      rw [walkOther_skip_step (9 :: 9 :: 9 :: 9 :: 9 :: 0 :: s).length hr9
        (by norm_num) (by decide) (by simp)]
      rw [show List.drop 4 (9 :: 9 :: 9 :: 9 :: 0 :: s) = 0 :: s from rfl]
      rw [walkOther_fuel_sat (by simp)]
      exact walkOther_key0 [(4, 1)] (0 :: s).length s
  have h1 := hart 65 (by omega)
  have h2 := hart 66 (by omega)
  have main := claim_C2_unknown_record_alignment [(4, 1)]
    [1, 4, 1, 65, 0] [5, 9, 9, 9, 9, 9, 0] [1, 4, 1, 66, 0] [65] [66] h1 hoth h2
  exact ⟨h1, hoth, h2, main.1, main.2⟩

/-! ## The varuint bound and value (claim C4)

A successful decode consumes at most 6 bytes: the source throws only once
`shift`, incremented by 7 per continuation byte, exceeds 35 — that happens
after the sixth continuation byte, so a terminator in any of the first SIX
positions is accepted. -/

/-- The little-endian base-128 value of the 7-bit payloads of a byte
sequence (the value the specification describes). -/
def varuintValue : List Nat → Nat
  | [] => 0
  | b :: rest => (b &&& 127) + 128 * varuintValue rest

theorem nat_lor_eq_add {a b k : Nat} (ha : a < 2 ^ k) :
    a ||| 2 ^ k * b = a + 2 ^ k * b := by
  apply Nat.eq_of_testBit_eq
  intro j
  rw [Nat.testBit_or]
  rw [show a + 2 ^ k * b = 2 ^ k * b + a by omega]
  rw [Nat.testBit_mul_pow_two_add b ha j]
  rw [Nat.testBit_mul_pow_two]
  by_cases hj : j < k
  · rw [if_pos hj]
    simp only [ge_iff_le, decide_eq_true_eq]
    rw [Bool.and_eq_false_iff.mpr (Or.inl (by simp; omega))]
    simp
  · rw [if_neg hj]
    have hb : a.testBit j = false :=
      Nat.testBit_lt_two_pow
        (lt_of_lt_of_le ha (Nat.pow_le_pow_right (by omega) (by omega)))
    rw [hb]
    simp [ge_iff_le, Nat.not_lt.mp hj]

theorem readVaruintAux_invalid :
    ∀ (k : Nat) (l : List Nat) (r : Int) (s : Nat),
    1 ≤ k → k ≤ l.length → (∀ i, i < k → l.getD i 0 &&& 128 ≠ 0) →
    35 < s + 7 * k →
    readVaruintAux l r s = .error invalidVaruintMsg := by
  intro k
  induction k with
  | zero => omega
  | succ k ih =>
    intro l r s _ hlen hcont hs
    match l with
    | [] => simp at hlen
    | b :: rest =>
      have hb : b &&& 128 ≠ 0 := by
        have := hcont 0 (by omega)
        simpa using this
      unfold readVaruintAux
      rw [if_neg hb]
      by_cases h7 : s + 7 > 35
      · rw [if_pos h7]
      · rw [if_neg h7]
        apply ih rest _ (s + 7) (by omega) (by simpa using hlen)
        · intro i hi
          have := hcont (i + 1) (by omega)
          simpa using this
        · omega

theorem readVaruintAux_eof :
    ∀ (l : List Nat) (r : Int) (s : Nat),
    (∀ b ∈ l, b &&& 128 ≠ 0) → s + 7 * l.length ≤ 35 →
    readVaruintAux l r s = .error eofMsg := by
  intro l
  induction l with
  | nil => intro r s _ _; rfl
  | cons b rest ih =>
    intro r s hall hs
    have hb : b &&& 128 ≠ 0 := hall b (by simp)
    unfold readVaruintAux
    rw [if_neg hb]
    simp only [List.length_cons] at hs
    rw [if_neg (by omega)]
    exact ih _ (s + 7) (fun x hx => hall x (by simp [hx])) (by omega)

theorem readVaruintAux_ok :
    ∀ (i : Nat) (l : List Nat) (r : Int) (s : Nat),
    i < l.length → (∀ j, j < i → l.getD j 0 &&& 128 ≠ 0) →
    l.getD i 0 &&& 128 = 0 → s + 7 * i ≤ 35 →
    ∃ v : Int, readVaruintAux l r s = .ok (v, l.drop (i + 1)) := by
  intro i
  induction i with
  | zero =>
    intro l r s hlen _ hterm _
    match l with
    | [] => simp at hlen
    | b :: rest =>
      simp only [List.getD_cons_zero] at hterm
      unfold readVaruintAux
      rw [if_pos hterm]
      exact ⟨_, rfl⟩
  | succ i ih =>
    intro l r s hlen hcont hterm hs
    match l with
    | [] => simp at hlen
    | b :: rest =>
      have hb : b &&& 128 ≠ 0 := by
        have := hcont 0 (by omega)
        simpa using this
      unfold readVaruintAux
      rw [if_neg hb, if_neg (by omega)]
      simp only [List.length_cons] at hlen
      obtain ⟨v, hv⟩ := ih rest _ (s + 7) (by omega)
        (fun j hj => by have := hcont (j + 1) (by omega); simpa using this)
        (by simpa using hterm) (by omega)
      exact ⟨v, by rw [hv]; simp⟩

theorem and_127_lt (b : Nat) : b &&& 127 < 128 := by
  rw [and_127_eq_mod]
  exact Nat.mod_lt b (by omega)

theorem jsOr_jsShl_small (a p m : Nat) (hm : m ≤ 3) (ha : a < 2 ^ (7 * m))
    (hp : p < 128) :
    jsOr (a : Int) (jsShl (p : Int) (7 * m)) =
      ((a + 2 ^ (7 * m) * p : Nat) : Int) := by
  have h2m : (2 : Nat) ^ (7 * m) ≤ 2 ^ 21 := Nat.pow_le_pow_right (by omega) (by omega)
  have h2m7 : (2 : Nat) ^ (7 * m + 7) ≤ 2 ^ 28 := Nat.pow_le_pow_right (by omega) (by omega)
  have hsplit : (2 : Nat) ^ (7 * m + 7) = 2 ^ (7 * m) * 128 := by
    rw [pow_add]; norm_num
  have hps : p * 2 ^ (7 * m) < 2147483648 := by
    have h1 : p * 2 ^ (7 * m) ≤ 127 * 2 ^ 21 := Nat.mul_le_mul (by omega) h2m
    omega
  have hsum : a + 2 ^ (7 * m) * p < 2147483648 := by
    have h1 : a + 2 ^ (7 * m) * p < 2 ^ (7 * m) * 128 := by
      have h2 : 2 ^ (7 * m) * p ≤ 2 ^ (7 * m) * 127 :=
        Nat.mul_le_mul_left _ (by omega)
      omega
    omega
  have hshl : jsShl (p : Int) (7 * m) = ((p * 2 ^ (7 * m) : Nat) : Int) := by
    unfold jsShl
    rw [toUInt32n_of_small p (by omega)]
    rw [Nat.mod_eq_of_lt (show 7 * m < 32 by omega), Nat.shiftLeft_eq]
    exact toInt32_of_small _ hps
  rw [hshl]
  unfold jsOr
  rw [toUInt32n_of_small a (by omega), toUInt32n_of_small _ (by omega)]
  rw [show p * 2 ^ (7 * m) = 2 ^ (7 * m) * p by ring]
  rw [nat_lor_eq_add ha]
  exact toInt32_of_small _ hsum

theorem readVaruintAux_value :
    ∀ (i : Nat) (l : List Nat) (a m : Nat),
    m + i ≤ 3 → a < 2 ^ (7 * m) → i < l.length →
    (∀ j, j < i → l.getD j 0 &&& 128 ≠ 0) → l.getD i 0 &&& 128 = 0 →
    readVaruintAux l (a : Int) (7 * m) =
      .ok (((a + 2 ^ (7 * m) * varuintValue (l.take (i + 1)) : Nat) : Int),
        l.drop (i + 1)) := by
  intro i
  induction i with
  | zero =>
    intro l a m hm ha hlen _ hterm
    match l with
    | [] => simp at hlen
    | b :: rest =>
      simp only [List.getD_cons_zero] at hterm
      unfold readVaruintAux
      rw [if_pos hterm]
      rw [jsOr_jsShl_small a (b &&& 127) m (by omega) ha (and_127_lt b)]
      simp [varuintValue]
  | succ i ih =>
    intro l a m hm ha hlen hcont hterm
    match l with
    | [] => simp at hlen
    | b :: rest =>
      have hb : b &&& 128 ≠ 0 := by
        have := hcont 0 (by omega)
        simpa using this
      have hsplit : (2 : Nat) ^ (7 * (m + 1)) = 2 ^ (7 * m) * 128 := by
        rw [show 7 * (m + 1) = 7 * m + 7 by ring, pow_add]; norm_num
      unfold readVaruintAux
      rw [if_neg hb, if_neg (by omega)]
      rw [jsOr_jsShl_small a (b &&& 127) m (by omega) ha (and_127_lt b)]
      have ha2 : a + 2 ^ (7 * m) * (b &&& 127) < 2 ^ (7 * (m + 1)) := by
        have h2 : 2 ^ (7 * m) * (b &&& 127) ≤ 2 ^ (7 * m) * 127 :=
          Nat.mul_le_mul_left _ (by have := and_127_lt b; omega)
        omega
      rw [show 7 * m + 7 = 7 * (m + 1) by ring]
      rw [ih rest (a + 2 ^ (7 * m) * (b &&& 127)) (m + 1) (by omega) ha2
        (by simpa using hlen)
        (fun j hj => by have := hcont (j + 1) (by omega); simpa using this)
        (by simpa using hterm)]
      simp only [List.take_succ_cons, List.drop_succ_cons, varuintValue]
      congr 2
      rw [hsplit]
      ring_nf

/-- C4 (amended): varuint decoding raises "Rive: invalid varuint" when no
byte with a clear continuation bit appears within SIX bytes (not five as
claimed: the shift-overflow guard `shift > 35` fires only after the sixth
continuation byte, so a terminator in position six is still accepted — see
claim_C4_counterexample), raises the end-of-file error when the buffer ends
before a terminating byte, and otherwise succeeds; the returned value is
the little-endian base-128 value of the 7-bit payloads whenever at most
four bytes are consumed (beyond that the source's signed 32-bit `|`/`<<`
arithmetic truncates the value and masks the shift count). -/
theorem claim_C4_varuint_bounds :
    (∀ l : List Nat, 6 ≤ l.length → (∀ i, i < 6 → l.getD i 0 &&& 128 ≠ 0) →
      readVaruint l = .error invalidVaruintMsg) ∧
    (∀ l : List Nat, l.length < 6 → (∀ b ∈ l, b &&& 128 ≠ 0) →
      readVaruint l = .error eofMsg) ∧
    (∀ (l : List Nat) (i : Nat), i < 6 → i < l.length →
      (∀ j, j < i → l.getD j 0 &&& 128 ≠ 0) → l.getD i 0 &&& 128 = 0 →
      ∃ v : Int, readVaruint l = .ok (v, l.drop (i + 1)) ∧
        (i ≤ 3 → v = (varuintValue (l.take (i + 1)) : Int))) := by
  refine ⟨?_, ?_, ?_⟩
  · intro l hlen hcont
    exact readVaruintAux_invalid 6 l 0 0 (by omega) hlen hcont (by omega)
  · intro l hlen hall
    exact readVaruintAux_eof l 0 0 hall (by omega)
  · intro l i hi6 hlen hcont hterm
    obtain ⟨v, hv⟩ := readVaruintAux_ok i l 0 0 hlen hcont hterm (by omega)
    refine ⟨v, hv, fun hi3 => ?_⟩
    have hval := readVaruintAux_value i l 0 0 (by omega) (by norm_num)
      hlen hcont hterm
    have h00 : readVaruintAux l ((0 : Nat) : Int) (7 * 0) = readVaruint l := by
      norm_num [readVaruint]
    have hv2 : readVaruint l = .ok (v, l.drop (i + 1)) := hv
    rw [h00, hv2] at hval
    simp only [Except.ok.injEq, Prod.mk.injEq] at hval
    rw [hval.1]
    norm_num

theorem claim_C4_witness :
    readVaruint [128, 128, 128, 128, 128, 128] = .error invalidVaruintMsg ∧
    readVaruint [128, 128] = .error eofMsg ∧
    (∃ v : Int, readVaruint [133, 7] = .ok (v, List.drop 2 [133, 7]) ∧
      (1 ≤ 3 → v = (varuintValue (List.take 2 [133, 7]) : Int))) :=
  ⟨claim_C4_varuint_bounds.1 [128, 128, 128, 128, 128, 128] (by norm_num)
      (by decide),
    claim_C4_varuint_bounds.2.1 [128, 128] (by norm_num) (by decide),
    claim_C4_varuint_bounds.2.2 [133, 7] 1 (by norm_num) (by norm_num)
      (by decide) (by decide)⟩

/-- C4 (counterexample): the claim says decoding must raise when no byte
with a clear continuation bit appears within 5 bytes; but on
80 80 80 80 80 00 — five continuation bytes followed by a terminator in
the sixth position — the source succeeds and returns 0. -/
theorem claim_C4_counterexample :
    readVaruint [128, 128, 128, 128, 128, 0] = .ok (0, []) ∧
    (∀ b ∈ [128, 128, 128, 128, 128], b &&& 128 ≠ 0) :=
  ⟨rfl, by decide⟩

/-! ## Identifier synthesis (generateArtboardTypes.js lines 13-17)

`toIdentifier` works on JS strings; a string is embedded as its list of
characters.  The regexes act per character class:
`[^a-zA-Z0-9_]` → replaceNonWord, `/_+/g` → collapseUnd, and
`/^_|_$/g` removes at most one leading and one trailing underscore
(the anchors can each match once) → trimOneUnderscore.  The `|| 'Unnamed'`
fallback is orUnnamed and the `/^[0-9]/` test is prependIfDigit. -/

def isWordChar (c : Char) : Bool :=
  (97 ≤ c.toNat && c.toNat ≤ 122) || (65 ≤ c.toNat && c.toNat ≤ 90) ||
    (48 ≤ c.toNat && c.toNat ≤ 57) || c == '_'

def isDigitChar (c : Char) : Bool :=
  48 ≤ c.toNat && c.toNat ≤ 57

def replaceNonWord (c : Char) : Char :=
  if isWordChar c then c else '_'

def collapseUnd : List Char → List Char
  | [] => []
  | [c] => [c]
  | a :: b :: rest =>
    if a = '_' ∧ b = '_' then collapseUnd (b :: rest)
    else a :: collapseUnd (b :: rest)

/-- One application of the anchored alternative `^_`: remove a single
leading underscore if present. -/
def dropLeadUnd (l : List Char) : List Char :=
  match l with
  | [] => []
  | c :: rest => if c = '_' then rest else l

/-- The full `/^_|_$/g` replacement: at most one leading and one trailing
underscore removed. -/
def trimOneUnderscore (l : List Char) : List Char :=
  (dropLeadUnd (dropLeadUnd l).reverse).reverse

def unnamedChars : List Char := ['U', 'n', 'n', 'a', 'm', 'e', 'd']

def orUnnamed (s : List Char) : List Char :=
  if s = [] then unnamedChars else s

def prependIfDigit (s : List Char) : List Char :=
  if isDigitChar (s.headD ' ') then '_' :: s else s

def toIdentifier (name : List Char) : List Char :=
  if name = [] then unnamedChars
  else prependIfDigit (orUnnamed (trimOneUnderscore
    (collapseUnd (name.map replaceNonWord))))

/-- Modelled on the specification text for comparison with the source
function: trim removes ALL leading and trailing underscores (on the
source's path this is equivalent, because collapsing has left no runs). -/
def trimAllUnderscore (l : List Char) : List Char :=
  ((l.dropWhile (· == '_')).reverse.dropWhile (· == '_')).reverse

/-- The identifier-synthesis pipeline exactly as the specification words
it: replace, collapse, trim, placeholder on empty, underscore before a
leading digit. -/
def toIdentifierSpec (name : List Char) : List Char :=
  prependIfDigit (orUnnamed (trimAllUnderscore
    (collapseUnd (name.map replaceNonWord))))

/-! ## Chains of non-adjacent underscores -/

theorem collapseUnd_head :
    ∀ (b : Char) (rest : List Char), (collapseUnd (b :: rest)).head? = some b := by
  intro b rest
  induction rest generalizing b with
  | nil => rfl
  | cons c r ih =>
    unfold collapseUnd
    by_cases h : b = '_' ∧ c = '_'
    · rw [if_pos h, ih c, h.1, h.2]
    · rw [if_neg h]
      rfl

theorem collapseUnd_chain (l : List Char) :
    List.Chain' (fun a b => ¬(a = '_' ∧ b = '_')) (collapseUnd l) := by
  induction l with
  | nil => simp [collapseUnd]
  | cons a l' ih =>
    cases l' with
    | nil => simp [collapseUnd]
    | cons b rest =>
      unfold collapseUnd
      by_cases h : a = '_' ∧ b = '_'
      · rw [if_pos h]
        exact ih
      · rw [if_neg h]
        rw [List.chain'_cons']
        refine ⟨?_, ih⟩
        intro y hy
        rw [collapseUnd_head b rest] at hy
        cases hy
        exact h

theorem dropWhile_und_eq {l : List Char}
    (h : List.Chain' (fun a b => ¬(a = '_' ∧ b = '_')) l) :
    l.dropWhile (· == '_') = dropLeadUnd l := by
  cases l with
  | nil => rfl
  | cons c rest =>
    unfold dropLeadUnd
    dsimp only
    by_cases hc : c = '_'
    · subst hc
      rw [if_pos rfl, List.dropWhile_cons, if_pos (by simp)]
      cases rest with
      | nil => rfl
      | cons d r2 =>
        have hd : d ≠ '_' := by
          have hR := (List.chain'_cons.mp h).1
          intro hdeq
          exact hR ⟨rfl, hdeq⟩
        rw [List.dropWhile_cons, if_neg (by simp [hd])]
    · rw [if_neg hc, List.dropWhile_cons, if_neg (by simp [hc])]

theorem chain_dropLeadUnd {l : List Char}
    (h : List.Chain' (fun a b => ¬(a = '_' ∧ b = '_')) l) :
    List.Chain' (fun a b => ¬(a = '_' ∧ b = '_')) (dropLeadUnd l) := by
  cases l with
  | nil => exact h
  | cons c rest =>
    unfold dropLeadUnd
    dsimp only
    by_cases hc : c = '_'
    · rw [if_pos hc]
      exact (List.chain'_cons'.mp h).2
    · rw [if_neg hc]
      exact h

theorem trimAll_eq_trimOne {l : List Char}
    (h : List.Chain' (fun a b => ¬(a = '_' ∧ b = '_')) l) :
    trimAllUnderscore l = trimOneUnderscore l := by
  unfold trimAllUnderscore trimOneUnderscore
  rw [dropWhile_und_eq h]
  have h1 := chain_dropLeadUnd h
  have h2 : List.Chain' (fun a b => ¬(a = '_' ∧ b = '_'))
      (dropLeadUnd l).reverse := by
    rw [List.chain'_reverse]
    exact h1.imp (fun a b hab hc => hab ⟨hc.2, hc.1⟩)
  rw [dropWhile_und_eq h2]

/-- C7: toIdentifier is a pure total function computing exactly the
specified pipeline — replace every character outside [a-zA-Z0-9_] by an
underscore, collapse consecutive underscores, trim leading and trailing
underscores, substitute "Unnamed" for an empty result, prepend an
underscore before a leading digit — and in particular maps "Tip Button"
to "Tip_Button", "123" to "_123", the empty string to "Unnamed", and
"A__B" to "A_B". -/
theorem claim_C7_toIdentifier_spec :
    (∀ name : List Char, toIdentifier name = toIdentifierSpec name) ∧
    toIdentifier ("Tip Button".data) = "Tip_Button".data ∧
    toIdentifier ("123".data) = "_123".data ∧
    toIdentifier ("".data) = "Unnamed".data ∧
    toIdentifier ("A__B".data) = "A_B".data := by
  refine ⟨?_, by decide, by decide, by decide, by decide⟩
  intro name
  by_cases hname : name = []
  · subst hname
    decide
  · unfold toIdentifier toIdentifierSpec
    rw [if_neg hname,
      trimAll_eq_trimOne (collapseUnd_chain (name.map replaceNonWord))]

/-! ## Validity of generated identifiers (claim C9) -/

def IsValidIdentChars (l : List Char) : Prop :=
  l ≠ [] ∧ (∀ c ∈ l, isWordChar c = true) ∧ isDigitChar (l.headD '_') = false

theorem mem_collapseUnd {c : Char} : ∀ {l : List Char}, c ∈ collapseUnd l → c ∈ l := by
  intro l
  induction l with
  | nil => simp [collapseUnd]
  | cons a l' ih =>
    cases l' with
    | nil => simp [collapseUnd]
    | cons b rest =>
      unfold collapseUnd
      by_cases h : a = '_' ∧ b = '_'
      · rw [if_pos h]
        intro hc
        exact List.mem_cons_of_mem a (ih hc)
      · rw [if_neg h]
        intro hc
        rcases List.mem_cons.mp hc with h1 | h2
        · exact List.mem_cons.mpr (Or.inl h1)
        · exact List.mem_cons_of_mem a (ih h2)

theorem mem_dropLeadUnd {c : Char} {l : List Char} (h : c ∈ dropLeadUnd l) :
    c ∈ l := by
  cases l with
  | nil => exact h
  | cons a rest =>
    unfold dropLeadUnd at h
    dsimp only at h
    by_cases ha : a = '_'
    · rw [if_pos ha] at h
      exact List.mem_cons_of_mem a h
    · rwa [if_neg ha] at h

theorem mem_trimOneUnderscore {c : Char} {l : List Char}
    (h : c ∈ trimOneUnderscore l) : c ∈ l := by
  unfold trimOneUnderscore at h
  rw [List.mem_reverse] at h
  have h1 := mem_dropLeadUnd h
  rw [List.mem_reverse] at h1
  exact mem_dropLeadUnd h1

/-- C9: for every input the synthesized identifier is syntactically valid:
non-empty, only ASCII letters, digits and underscores, and not starting
with a digit. -/
theorem claim_C9_toIdentifier_valid (name : List Char) :
    IsValidIdentChars (toIdentifier name) := by
  have hunnamed : IsValidIdentChars unnamedChars := by
    unfold IsValidIdentChars
    refine ⟨by decide, by decide, by decide⟩
  have hword : ∀ c ∈ (collapseUnd (name.map replaceNonWord)), isWordChar c = true := by
    intro c hc
    have h1 := mem_collapseUnd hc
    obtain ⟨x, _, hx⟩ := List.mem_map.mp h1
    subst hx
    unfold replaceNonWord
    by_cases hw : isWordChar x
    · rwa [if_pos hw]
    · rw [if_neg hw]
      decide
  unfold toIdentifier
  by_cases hname : name = []
  · rwa [if_pos hname]
  · rw [if_neg hname]
    have hword2 : ∀ c ∈ trimOneUnderscore (collapseUnd (name.map replaceNonWord)),
        isWordChar c = true := fun c hc => hword c (mem_trimOneUnderscore hc)
    unfold orUnnamed
    by_cases hempty : trimOneUnderscore (collapseUnd (name.map replaceNonWord)) = []
    · rw [if_pos hempty]
      unfold prependIfDigit
      rw [if_neg (by decide)]
      exact hunnamed
    · rw [if_neg hempty]
      obtain ⟨c, cs, hcs⟩ := List.exists_cons_of_ne_nil hempty
      rw [hcs]
      rw [hcs] at hword2
      unfold prependIfDigit
      by_cases hdig : isDigitChar ((c :: cs).headD ' ') = true
      · rw [if_pos hdig]
        refine ⟨by simp, ?_, by rfl⟩
        intro x hx
        rcases List.mem_cons.mp hx with h1 | h2
        · subst h1; decide
        · exact hword2 x h2
      · rw [if_neg hdig]
        refine ⟨by simp, hword2, ?_⟩
        simpa using hdig

/-! ## The generated state-machine artifact (generateArtboardTypes.js lines 71-103)

The generator's emitted text is modelled by the data each template slot is
filled from: `allStateMachineNames = [...new Set(Object.values(m).flat())]`
is first-occurrence deduplication of the concatenated per-artboard lists;
`.sort()` (code-unit ascending; on the deduplicated list the sorted
rearrangement is unique, so any correct sort models it) feeds both the
union type and the list constant; the mapping is emitted verbatim with
`JSON.stringify(stateMachinesByArtboard)`.  Artboard names and their
sanitized identifiers fill the artboard files (lines 28-69). -/

def toIdentifierStr (s : String) : String := String.mk (toIdentifier s.data)

structure SmArtifact where
  unionMembers : List String
  listConstant : List String
  mapping : List (String × List String)
  smBaseName : String
deriving DecidableEq

/-- JS `new Set(...)` iteration order: first occurrences, in order. -/
def jsSetDedupAux {α : Type} [DecidableEq α] (seen : List α) : List α → List α
  | [] => []
  | x :: xs =>
    if x ∈ seen then jsSetDedupAux seen xs
    else x :: jsSetDedupAux (x :: seen) xs

def jsSetDedup {α : Type} [DecidableEq α] (l : List α) : List α :=
  jsSetDedupAux [] l

/-- Line 76: `baseName.replace(/Artboard$/, '') || 'Rive'`. -/
def smBaseNameOf (baseName : String) : String :=
  let b := if baseName.endsWith "Artboard" then baseName.dropRight 8 else baseName
  if b = "" then "Rive" else b

def generateSmArtifact (baseName : String)
    (smByArtboard : List (String × List String)) : Option SmArtifact :=
  let all := jsSetDedup ((smByArtboard.map Prod.snd).flatten)
  if all = [] then none
  else
    some { unionMembers := List.insertionSort (· ≤ ·) all
           listConstant := List.insertionSort (· ≤ ·) all
           mapping := smByArtboard
           smBaseName := smBaseNameOf baseName }

structure GeneratedSuite where
  artboardNames : List String
  safeNames : List String
  sm : Option SmArtifact
  stateMachineNames : List String
  files : List String
deriving DecidableEq

def generateArtboardTypes (artboardNames : List String)
    (smByArtboard : List (String × List String)) (baseName : String) :
    GeneratedSuite :=
  let sm := generateSmArtifact baseName smByArtboard
  { artboardNames := artboardNames
    safeNames := artboardNames.map toIdentifierStr
    sm := sm
    stateMachineNames := match sm with | some a => a.listConstant | none => []
    files := match sm with
      | some _ => ["artboards.ts", "artboardNames.ts", "stateMachines.ts", "index.ts"]
      | none => ["artboards.ts", "artboardNames.ts", "index.ts"] }

theorem jsSetDedupAux_mem {α : Type} [DecidableEq α] {x : α} :
    ∀ {l seen : List α}, x ∈ jsSetDedupAux seen l ↔ x ∈ l ∧ x ∉ seen := by
  intro l
  induction l with
  | nil => simp [jsSetDedupAux]
  | cons y ys ih =>
    intro seen
    unfold jsSetDedupAux
    by_cases hy : y ∈ seen
    · rw [if_pos hy, ih]
      constructor
      · rintro ⟨h1, h2⟩
        exact ⟨List.mem_cons_of_mem y h1, h2⟩
      · rintro ⟨h1, h2⟩
        rcases List.mem_cons.mp h1 with rfl | h3
        · exact absurd hy h2
        · exact ⟨h3, h2⟩
    · rw [if_neg hy]
      constructor
      · intro hx
        rcases List.mem_cons.mp hx with rfl | h3
        · exact ⟨List.mem_cons_self x ys, hy⟩
        · rw [ih] at h3
          refine ⟨List.mem_cons_of_mem y h3.1, ?_⟩
          intro hs
          exact h3.2 (List.mem_cons_of_mem y hs)
      · rintro ⟨h1, h2⟩
        rcases List.mem_cons.mp h1 with rfl | h3
        · exact List.mem_cons_self x _
        · by_cases hxy : x = y
          · subst hxy
            exact List.mem_cons_self x _
          · refine List.mem_cons_of_mem y (ih.mpr ⟨h3, ?_⟩)
            intro hs
            rcases List.mem_cons.mp hs with h4 | h5
            · exact hxy h4
            · exact h2 h5

theorem jsSetDedupAux_nodup {α : Type} [DecidableEq α] :
    ∀ (l seen : List α), (jsSetDedupAux seen l).Nodup := by
  intro l
  induction l with
  | nil => intro seen; simp [jsSetDedupAux]
  | cons y ys ih =>
    intro seen
    unfold jsSetDedupAux
    by_cases hy : y ∈ seen
    · rw [if_pos hy]
      exact ih seen
    · rw [if_neg hy]
      refine List.nodup_cons.mpr ⟨?_, ih (y :: seen)⟩
      intro hmem
      exact (jsSetDedupAux_mem.mp hmem).2 (List.mem_cons_self y seen)

theorem jsSetDedup_mem {α : Type} [DecidableEq α] {x : α} {l : List α} :
    x ∈ jsSetDedup l ↔ x ∈ l := by
  unfold jsSetDedup
  rw [jsSetDedupAux_mem]
  simp

theorem jsSetDedup_nodup {α : Type} [DecidableEq α] (l : List α) :
    (jsSetDedup l).Nodup := jsSetDedupAux_nodup l []

theorem jsSetDedup_ne_nil {α : Type} [DecidableEq α] {l : List α}
    (h : l ≠ []) : jsSetDedup l ≠ [] := by
  obtain ⟨x, xs, rfl⟩ := List.exists_cons_of_ne_nil h
  unfold jsSetDedup jsSetDedupAux
  rw [if_neg (by simp)]
  simp

/-- C8: whenever the state-machine mapping holds at least one name, the
emitted state-machine artifact's union type and list constant are one and
the same deduplicated, sorted list of all state-machine names (sorted,
without duplicates, containing exactly the names of the per-artboard
lists), while the emitted per-artboard mapping is exactly the mapping
supplied, order and duplicates untouched. -/
theorem claim_C8_sm_artifact_sorted_dedup (arts : List String)
    (m : List (String × List String)) (baseName : String)
    (h : (m.map Prod.snd).flatten ≠ []) :
    ∃ a : SmArtifact, (generateArtboardTypes arts m baseName).sm = some a ∧
      a.unionMembers.Sorted (· ≤ ·) ∧ a.unionMembers.Nodup ∧
      (∀ x, x ∈ a.unionMembers ↔ ∃ p ∈ m, x ∈ p.2) ∧
      a.listConstant = a.unionMembers ∧ a.mapping = m := by
  have hne := jsSetDedup_ne_nil h
  have hperm := List.perm_insertionSort (α := String) (· ≤ ·)
    (jsSetDedup ((m.map Prod.snd).flatten))
  refine ⟨⟨List.insertionSort (· ≤ ·) (jsSetDedup ((m.map Prod.snd).flatten)),
    List.insertionSort (· ≤ ·) (jsSetDedup ((m.map Prod.snd).flatten)),
    m, smBaseNameOf baseName⟩, ?_, ?_, ?_, ?_, rfl, rfl⟩
  · show (generateArtboardTypes arts m baseName).sm = _
    unfold generateArtboardTypes generateSmArtifact
    rw [if_neg hne]
  · exact List.sorted_insertionSort (· ≤ ·) _
  · exact hperm.nodup_iff.mpr (jsSetDedup_nodup _)
  · intro x
    rw [hperm.mem_iff, jsSetDedup_mem, List.mem_flatten]
    constructor
    · rintro ⟨l, hl, hx⟩
      obtain ⟨p, hp, rfl⟩ := List.mem_map.mp hl
      exact ⟨p, hp, hx⟩
    · rintro ⟨p, hp, hx⟩
      exact ⟨p.2, List.mem_map.mpr ⟨p, hp, rfl⟩, hx⟩

theorem claim_C8_witness :
    ((([("A", ["S2", "S1"]), ("B", ["S1"])] : List (String × List String)).map
      Prod.snd).flatten ≠ []) ∧
    (∃ a : SmArtifact,
      (generateArtboardTypes ["Main"] [("A", ["S2", "S1"]), ("B", ["S1"])]
        "RiveArtboard").sm = some a ∧
      a.unionMembers.Sorted (· ≤ ·) ∧ a.unionMembers.Nodup ∧
      (∀ x, x ∈ a.unionMembers ↔
        ∃ p ∈ ([("A", ["S2", "S1"]), ("B", ["S1"])] : List (String × List String)),
          x ∈ p.2) ∧
      a.listConstant = a.unionMembers ∧
      a.mapping = [("A", ["S2", "S1"]), ("B", ["S1"])]) :=
  ⟨by simp, claim_C8_sm_artifact_sorted_dedup ["Main"]
    [("A", ["S2", "S1"]), ("B", ["S1"])] "RiveArtboard" (by simp)⟩

/-! ## Name resolution in the generate command (generate.js lines 42-53)

The variant of generate.js cited by the claims (the one without
state-machine support): an explicit `--artboards` list is split on commas,
each part trimmed, empty parts dropped; only when that leaves no names and
a source path was given does the extraction pipeline run (the file is
loaded and parsed only inside `extract`, here an oracle parameter).
Strings are embedded as their character lists. -/

/-- JS `a.split(',')`. -/
def splitOnComma : List Char → List (List Char)
  | [] => [[]]
  | c :: rest =>
    match splitOnComma rest with
    | [] => if c = ',' then [[], []] else [[c]]
    | g :: gs => if c = ',' then [] :: g :: gs else (c :: g) :: gs

/-- JS `String.prototype.trim`. -/
def trimChars (l : List Char) : List Char :=
  ((l.dropWhile Char.isWhitespace).reverse.dropWhile Char.isWhitespace).reverse

/-- generate.js line 44: split, trim each part, drop the falsy (empty)
parts. -/
def splitNamesArg (a : List Char) : List (List Char) :=
  ((splitOnComma a).map trimChars).filter (fun s => !s.isEmpty)

structure Resolution where
  names : List (List Char)
  extractionRan : Bool
deriving DecidableEq

/-- generate.js lines 42-53: names from the override when given; the
extraction pipeline runs only when no override name survives and a source
path is present. -/
def resolveNamesV1 (artboardsArg : Option (List Char))
    (src : Option (List Char)) (extract : List Char → List (List Char)) :
    Resolution :=
  let names0 := match artboardsArg with
    | some a => splitNamesArg a
    | none => []
  match src with
  | some p => if names0 = [] then ⟨extract p, true⟩ else ⟨names0, false⟩
  | none => ⟨names0, false⟩

/-- C5: when the caller supplies an explicit comma-separated artboard name
list (one that contains at least one name after trimming), that parsed
list is the generator's input verbatim and no extraction runs: the source
file is neither loaded nor parsed, whatever `--src` was given and whatever
the extraction oracle would have returned. -/
theorem claim_C5_override_bypasses_extraction (a : List Char)
    (src : Option (List Char)) (extract : List Char → List (List Char))
    (h : splitNamesArg a ≠ []) :
    resolveNamesV1 (some a) src extract = ⟨splitNamesArg a, false⟩ := by
  unfold resolveNamesV1
  cases src with
  | none => rfl
  | some p =>
    dsimp only
    rw [if_neg h]

theorem claim_C5_witness :
    splitNamesArg ("Main, OrderButton".data) ≠ [] ∧
    resolveNamesV1 (some ("Main, OrderButton".data)) (some ("anim.riv".data))
      (fun _ => ["FromFile".data]) =
      ⟨["Main".data, "OrderButton".data], false⟩ := by
  refine ⟨by decide, ?_⟩
  rw [claim_C5_override_bypasses_extraction ("Main, OrderButton".data)
    (some ("anim.riv".data)) (fun _ => ["FromFile".data]) (by decide)]
  decide

/-! ## The extraction resolver (getArtboardNames.js)

The resolver's interactions with the outside world — reading the file,
availability of the in-process engine (`rive && rive.RiveFile`), the
behaviour of the in-process walk, and everything inside
extractWithHeadlessBrowser's own try/catch — are oracles in an
environment record.  The trace records which strategies ran; the source
never references the raw container parser (rivParser.js is exported but
has no caller in getArtboardNames.js), so no path sets ranRawParser. -/

structure Extraction where
  artboardNames : List String
  stateMachinesByArtboard : List (String × List String)
deriving DecidableEq

inductive InProcOutcome
  | throws
  | noApi
  | extracted (names : List String) (sm : List (String × List String))
deriving DecidableEq

structure ResolverEnv where
  fileReadOk : Bool
  riveAvailable : Bool
  inProcess : InProcOutcome
  headlessInternal : Except Unit (Option Extraction)

structure ResolveTrace where
  result : Option Extraction
  ranInProcess : Bool
  ranHeadless : Bool
  ranRawParser : Bool
deriving DecidableEq

/-- Lines 17-89: every failure inside the headless strategy (its `catch`
and the inner page-side catch) yields null; nothing propagates. -/
def extractWithHeadlessBrowser (env : ResolverEnv) : Option Extraction :=
  match env.headlessInternal with
  | .error _ => none
  | .ok r => r

/-- Lines 99-172: unreadable file → null; no usable engine module → the
headless strategy directly; otherwise the in-process walk, falling back to
the headless strategy only when the walk throws (line 168); a missing
artboard API or zero non-blank names return null without fallback. -/
def getArtboardNames (env : ResolverEnv) : ResolveTrace :=
  if env.fileReadOk = false then ⟨none, false, false, false⟩
  else if env.riveAvailable = false then
    ⟨extractWithHeadlessBrowser env, false, true, false⟩
  else
    match env.inProcess with
    | .throws => ⟨extractWithHeadlessBrowser env, true, true, false⟩
    | .noApi => ⟨none, true, false, false⟩
    | .extracted names sm =>
      let nonEmpty := names.filter (fun n => n.trim != "")
      ⟨if nonEmpty = [] then none else some ⟨nonEmpty, sm⟩, true, false, false⟩

/-- C6 (amended): the resolver runs (at most) two strategies, in the order
in-process engine then sandboxed headless engine; a throw of the
in-process strategy is caught and falls through to the headless strategy,
whose own internal failures are swallowed into a null result, and the raw
container parser never runs — when both engine strategies produce nothing
the resolver returns null without invoking it.  The unamended claim, that
the raw parser runs as a third strategy once both engine strategies fail,
is refuted by claim_C6_counterexample. -/
theorem claim_C6_strategy_order (env : ResolverEnv) :
    (getArtboardNames env).ranRawParser = false ∧
    (env.fileReadOk = true → env.riveAvailable = true →
      env.inProcess = .throws →
      getArtboardNames env =
        ⟨extractWithHeadlessBrowser env, true, true, false⟩) ∧
    (env.fileReadOk = true → env.riveAvailable = false →
      getArtboardNames env =
        ⟨extractWithHeadlessBrowser env, false, true, false⟩) ∧
    (∀ e, env.headlessInternal = .error e →
      extractWithHeadlessBrowser env = none) := by
  refine ⟨?_, ?_, ?_, ?_⟩
  · unfold getArtboardNames
    by_cases h1 : env.fileReadOk = false
    · rw [if_pos h1]
    · rw [if_neg h1]
      by_cases h2 : env.riveAvailable = false
      · rw [if_pos h2]
      · rw [if_neg h2]
        cases env.inProcess <;> rfl
  · intro hf hr hp
    unfold getArtboardNames
    rw [if_neg (by rw [hf]; simp), if_neg (by rw [hr]; simp), hp]
  · intro hf hr
    unfold getArtboardNames
    rw [if_neg (by rw [hf]; simp), if_pos hr]
  · intro e he
    unfold extractWithHeadlessBrowser
    rw [he]

theorem claim_C6_witness :
    (getArtboardNames ⟨true, true, .throws, .error ()⟩).ranRawParser = false ∧
    getArtboardNames ⟨true, true, .throws, .error ()⟩ =
      ⟨extractWithHeadlessBrowser ⟨true, true, .throws, .error ()⟩,
        true, true, false⟩ ∧
    extractWithHeadlessBrowser ⟨true, true, .throws, .error ()⟩ = none :=
  ⟨(claim_C6_strategy_order ⟨true, true, .throws, .error ()⟩).1,
    (claim_C6_strategy_order ⟨true, true, .throws, .error ()⟩).2.1 rfl rfl rfl,
    (claim_C6_strategy_order ⟨true, true, .throws, .error ()⟩).2.2.2 () rfl⟩

/-- C6 (counterexample): file readable, engine module present, in-process
strategy throws, sandboxed strategy fails internally — both engine-based
strategies have failed, yet the resolver returns null with the raw
container parser never run (ranRawParser = false), contradicting the
claimed third-strategy fallback. -/
theorem claim_C6_counterexample :
    getArtboardNames ⟨true, true, .throws, .error ()⟩ =
      ⟨none, true, true, false⟩ := rfl
